import Mathlib

/-!
Verification of the layered property-resolution and template-substitution
core of the `fire` HTTP request tool against its specification.

The Rust sources are shallowly embedded: Rust `String` values become
`List Char` (the character sequence), `Vec<T>` becomes `List T`, a
`HashMap<String, String>` becomes an association list with
insert-overwrites-by-key semantics (only `insert`, membership and lookup are
used by the program), and a `HashSet<String>` becomes a deduplicated list in
insertion order. Fallible Rust functions returning `Result` become `Except`.
-/

namespace Fire

/-! ## src/prop.rs: `Source`, `Property` and the priority comparison -/

/-- `enum Source` of src/prop.rs: where a property came from.
`usize` depth is modelled as `Nat`. -/
inductive Source where
  | EnvVar : Source
  | File : Nat → Source
  | Arg : Source
deriving DecidableEq, Repr

/-- `impl Ord for Source` (src/prop.rs lines 24-36), arm for arm and in the
same order; `d1.cmp(d0)` on `usize` is the numeric comparison of `d1`
against `d0`. -/
def Source.cmp : Source → Source → Ordering
  | .EnvVar, .EnvVar => .eq
  | .Arg, .Arg => .eq
  | .File d0, .File d1 => if d1 < d0 then .lt else if d0 < d1 then .gt else .eq
  | .File _, .EnvVar => .lt
  | .EnvVar, _ => .gt
  | .File _, .Arg => .gt
  | .Arg, _ => .lt

/-- `struct Property` of src/prop.rs. -/
structure Property where
  key : List Char
  value : List Char
  source : Source
deriving DecidableEq, Repr

/-- `ParsePropertyError` of src/prop.rs. -/
inductive ParsePropertyError where
  | Entry : List Char → ParsePropertyError
  | Key : List Char → ParsePropertyError
  | Value : List Char → ParsePropertyError
  | File : List Char → ParsePropertyError
deriving DecidableEq, Repr

/-- `Property::new` (src/prop.rs lines 39-41): it performs no validation and
always returns `Ok`. -/
def Property.new (key value : List Char) (source : Source) :
    Except ParsePropertyError Property :=
  .ok ⟨key, value, source⟩

/-- `Property::with_source` (src/prop.rs lines 51-53). -/
def Property.withSource (p : Property) (s : Source) : Property :=
  { p with source := s }

/-- `impl Ord for Property` (src/prop.rs lines 56-60): compares only the
sources. -/
def Property.cmp (a b : Property) : Ordering :=
  Source.cmp a.source b.source

/-- The precedence order exactly as the spec states it
(`EnvironmentVariable < File(shallow) < File(deep) < Arg`): `specPrecLt a b`
holds when `a` has strictly lower precedence than `b`. Written from the
spec's words, to be compared against the source's `Source.cmp`. -/
def specPrecLt : Source → Source → Bool
  | .EnvVar, .File _ => true
  | .EnvVar, .Arg => true
  | .File d0, .File d1 => d0 < d1
  | .File _, .Arg => true
  | _, _ => false

/-! ## src/template.rs: `merge`, the property resolver

`maps.sort()` is Rust's stable sort; it is modelled by a stable insertion
sort (an element is inserted after all strictly smaller elements and before
the first element that is not strictly smaller, so equal elements keep
their relative order, as Rust's stable sort guarantees). -/

/-- Insert `p` into an already sorted list, after every element strictly
smaller than `p` (stability: before existing equal elements' successors,
never past an equal element's position from the right). -/
def insertSorted (p : Property) : List Property → List Property
  | [] => [p]
  | q :: qs => if Property.cmp q p = .lt then q :: insertSorted p qs else p :: q :: qs

/-- Stable sort by `Property.cmp`, modelling `Vec::sort`. -/
def sortProps (l : List Property) : List Property :=
  l.foldr insertSorted []

/-- `HashMap::insert` on the association-list model: overwrite the value when
the key is present, append otherwise. -/
def hmInsert (m : List (List Char × List Char)) (k v : List Char) :
    List (List Char × List Char) :=
  if m.any (fun kv => kv.1 == k) then
    m.map (fun kv => if kv.1 == k then (k, v) else kv)
  else
    m ++ [(k, v)]

/-- `HashMap` lookup on the association-list model. -/
def hmLookup (m : List (List Char × List Char)) (k : List Char) :
    Option (List Char) :=
  match m.find? (fun kv => kv.1 == k) with
  | some kv => some kv.2
  | none => none

/-- `merge` (src/template.rs lines 65-77): stable-sort the properties
ascending by the priority comparison, reverse, and collect into a map where
a later insertion with the same key overwrites an earlier one. -/
def merge (maps : List Property) : List (List Char × List Char) :=
  ((sortProps maps).reverse).foldl (fun m p => hmInsert m p.key p.value) []

/-- The spec's precedence order and the source's comparison point in opposite
directions: a strictly higher-precedence source compares `lt` under
`Source.cmp`. -/
theorem specPrecLt_cmp {s t : Source} (h : specPrecLt s t = true) :
    Source.cmp t s = .lt ∧ Source.cmp s t = .gt := by
  cases s <;> cases t <;> simp_all [specPrecLt, Source.cmp]
  omega

/-- C1: for two properties with the same key whose priorities differ under
the spec's precedence order `EnvironmentVariable < File(shallow) < File(deep)
< Arg`, `merge` maps that key to the value of the higher-priority property,
whichever order the two are supplied in; and the spec's Scenario B (the
source's `test_merge_properties`) resolves `key` to `"arg"`. -/
theorem C1_merge_higher_priority_wins :
    (∀ (k va vb : List Char) (sa sb : Source), specPrecLt sb sa = true →
      hmLookup (merge [⟨k, va, sa⟩, ⟨k, vb, sb⟩]) k = some va ∧
      hmLookup (merge [⟨k, vb, sb⟩, ⟨k, va, sa⟩]) k = some va) ∧
    hmLookup (merge [⟨"key".toList, "file0".toList, .File 0⟩,
        ⟨"key".toList, "file1".toList, .File 1⟩,
        ⟨"key".toList, "env".toList, .EnvVar⟩,
        ⟨"key".toList, "arg".toList, .Arg⟩]) "key".toList =
      some "arg".toList := by
  refine ⟨fun k va vb sa sb h => ?_, by decide⟩
  obtain ⟨hlt, hgt⟩ := specPrecLt_cmp h
  constructor <;>
    simp [merge, sortProps, insertSorted, Property.cmp, hlt, hgt, hmInsert, hmLookup]

/-- C2: `Source.cmp` is a strict total order (comparisons are consistent:
`eq` exactly on equal ranks, `lt` exactly when the reverse comparison is
`gt`, and `lt` is transitive), and sorting the list
`[File 0, File 1, Arg, EnvVar]` ascending by it (the source's
`test_properties_sort_order`) yields `[Arg, File 1, File 0, EnvVar]`. -/
theorem C2_priority_strict_total_order :
    (∀ a b : Source, Source.cmp a b = .eq ↔ a = b) ∧
    (∀ a b : Source, Source.cmp a b = .lt ↔ Source.cmp b a = .gt) ∧
    (∀ a b c : Source, Source.cmp a b = .lt → Source.cmp b c = .lt →
      Source.cmp a c = .lt) ∧
    (sortProps [⟨"key".toList, "file_root".toList, .File 0⟩,
        ⟨"key".toList, "file_child".toList, .File 1⟩,
        ⟨"key".toList, "arg".toList, .Arg⟩,
        ⟨"key".toList, "env_var".toList, .EnvVar⟩]).map Property.source =
      [.Arg, .File 1, .File 0, .EnvVar] ∧
    (sortProps [⟨"key".toList, "file_root".toList, .File 0⟩,
        ⟨"key".toList, "file_child".toList, .File 1⟩,
        ⟨"key".toList, "arg".toList, .Arg⟩,
        ⟨"key".toList, "env_var".toList, .EnvVar⟩]).map Property.value =
      ["arg".toList, "file_child".toList, "file_root".toList,
        "env_var".toList] := by
  refine ⟨fun a b => ?_, fun a b => ?_, fun a b c => ?_, by decide, by decide⟩
  · cases a <;> cases b <;> simp [Source.cmp] <;> omega
  · cases a <;> cases b <;> simp [Source.cmp] <;> omega
  · cases a <;> cases b <;> cases c <;> simp [Source.cmp] <;> omega

/-! ## src/prop.rs: parsing `KEY=VALUE` lines and variable files -/

/-- Rust's `char::is_whitespace`: the Unicode `White_Space` property,
written out character by character. -/
def rustIsWhitespace (c : Char) : Bool :=
  (0x09 ≤ c.val && c.val ≤ 0x0D) || c.val = 0x20 || c.val = 0x85 ||
    c.val = 0xA0 || c.val = 0x1680 || (0x2000 ≤ c.val && c.val ≤ 0x200A) ||
    c.val = 0x2028 || c.val = 0x2029 || c.val = 0x202F || c.val = 0x205F ||
    c.val = 0x3000

/-- The quote characters `normalize` strips: `'` and `"`
(src/prop.rs line 126). -/
def isQuote (c : Char) : Bool :=
  c = '\x27' || c = '\x22'

/-- Rust's `str::trim_matches`-style trimming for a character predicate:
repeatedly remove matching characters from both ends. `str::trim` is the
same with the whitespace predicate. -/
def trimBy (p : Char → Bool) (s : List Char) : List Char :=
  ((s.dropWhile p).reverse.dropWhile p).reverse

/-- `normalize` (src/prop.rs lines 125-128): trim whitespace, then trim
every leading and trailing quote character. -/
def normalize (input : List Char) : List Char :=
  trimBy isQuote (trimBy rustIsWhitespace input)

/-- `const DELIMITER: char = '='` (src/prop.rs line 112). -/
def DELIMITER : Char := '='

/-- Rust's `str::split_once`: the text before and after the first occurrence
of the delimiter, or `none` when it does not occur. -/
def splitOnce (c : Char) : List Char → Option (List Char × List Char)
  | [] => none
  | x :: xs =>
    if x = c then some ([], xs)
    else (splitOnce c xs).map (fun kv => (x :: kv.1, kv.2))

/-- `impl FromStr for Property` (src/prop.rs lines 114-123): split on the
first `=`, normalize both halves, tag with `Source::EnvVar`; a line with no
`=` is an `Entry` error. -/
def Property.fromStr (s : List Char) : Except ParsePropertyError Property :=
  match splitOnce DELIMITER s with
  | some kv => Property.new (normalize kv.1) (normalize kv.2) .EnvVar
  | none => .error (.Entry s)

/-- Rust's `str::lines` on the character-list model: split on `'\n'`, drop
one final empty piece (a trailing line terminator produces no extra line),
and strip one trailing `'\r'` from each line. -/
def rustLines (s : List Char) : List (List Char) :=
  let parts := s.splitOn '\x0A'
  let parts := match parts.getLast? with
    | some [] => parts.dropLast
    | _ => parts
  parts.map fun l =>
    match l.getLast? with
    | some '\x0D' => l.dropLast
    | _ => l

/-- A path, modelled as its list of components (what Rust's
`Path::components` iterates). -/
abbrev FPath := List String

/-- `source` (src/prop.rs lines 80-83): the priority of a variable file is
`File(n)` where `n` is the number of components of the file's own path. -/
def sourceOfPath (path : FPath) : Source :=
  Source.File path.length

/-- The `.collect::<Result<Vec<Property>, _>>()` step of `from_file`: parse
each line, give the property the file's source, stop at the first error. -/
def collectProps (src : Source) : List (List Char) → Except ParsePropertyError (List Property)
  | [] => .ok []
  | l :: ls =>
    match Property.fromStr l with
    | .error e => .error e
    | .ok p =>
      match collectProps src ls with
      | .error e => .error e
      | .ok ps => .ok (p.withSource src :: ps)

/-- `from_file` (src/prop.rs lines 68-78) given the file's path and content
(the `read_to_string` I/O is factored out as the `content` argument): split
the content into lines, skip blank lines, parse each remaining line and tag
it with the file's `File(depth)` source. -/
def fromFile (path : FPath) (content : List Char) :
    Except ParsePropertyError (List Property) :=
  collectProps (sourceOfPath path)
    ((rustLines content).filter fun line => !(trimBy rustIsWhitespace line).isEmpty)

instance {ε α : Type} [DecidableEq ε] [DecidableEq α] : DecidableEq (Except ε α)
  | .ok a, .ok b =>
    if h : a = b then .isTrue (by rw [h]) else .isFalse (by simp [h])
  | .ok _, .error _ => .isFalse (by simp)
  | .error _, .ok _ => .isFalse (by simp)
  | .error e, .error f =>
    if h : e = f then .isTrue (by rw [h]) else .isFalse (by simp [h])

/-- Every property `collectProps` returns carries the source it was given. -/
theorem collectProps_source {src : Source} :
    ∀ (ls : List (List Char)) (props : List Property),
      collectProps src ls = .ok props → ∀ p ∈ props, p.source = src := by
  intro ls
  induction ls with
  | nil =>
    intro props h p hp
    simp only [collectProps, Except.ok.injEq] at h
    subst h
    simp at hp
  | cons l ls ih =>
    intro props h p hp
    simp only [collectProps] at h
    cases hf : Property.fromStr l with
    | error e => rw [hf] at h; cases h
    | ok q =>
      rw [hf] at h
      cases hrest : collectProps src ls with
      | error e => rw [hrest] at h; cases h
      | ok ps =>
        rw [hrest] at h
        cases h
        rcases List.mem_cons.mp hp with hp | hp
        · subst hp; rfl
        · exact ih ps hrest p hp

/-- C3 (amended): every property parsed out of a variable file at path `P`
carries the priority `File(n)` with `n` the component count of `P` itself
(one more than the count of the directory containing `P`), and all the
properties of one file share it. -/
theorem C3_file_properties_share_path_depth :
    (∀ (path : FPath) (content : List Char) (props : List Property),
      fromFile path content = .ok props →
        ∀ p ∈ props, p.source = .File path.length) ∧
    fromFile ["a", "f.env"] "K=V\nJ=W".toList =
      .ok [⟨"K".toList, "V".toList, .File 2⟩,
        ⟨"J".toList, "W".toList, .File 2⟩] := by
  exact ⟨fun path content props h => collectProps_source _ props h, by decide⟩

/-- C3 counterexample: for the file `a/f.env` (two path components, one
directory component) every parsed property carries `File 2`, the component
count of the file's own path, not `File 1`, the component count of the
directory containing it, as the claim states. -/
theorem C3_counterexample_depth_counts_file_component :
    fromFile ["a", "f.env"] "K=V".toList =
      .ok [⟨"K".toList, "V".toList, .File 2⟩] ∧
    Source.File 2 ≠ Source.File (["a", "f.env"] : FPath).dropLast.length := by
  decide

/-- `split_once` finds the first occurrence of the delimiter. -/
theorem splitOnce_first {c : Char} :
    ∀ (k v : List Char), c ∉ k → splitOnce c (k ++ c :: v) = some (k, v) := by
  intro k
  induction k with
  | nil => intro v _; simp [splitOnce]
  | cons x xs ih =>
    intro v h
    have hx : ¬x = c := fun hxc => h (by simp [hxc])
    have hmem : c ∉ xs := fun hc => h (List.mem_cons_of_mem x hc)
    simp [splitOnce, hx, ih v hmem]

/-- C4 (amended): a line containing `=` splits at the first `=`; key and
value are each trimmed of surrounding whitespace and then stripped of every
leading and trailing quote character (`'` or `"`), whether or not the quotes
form a matching pair. -/
theorem C4_split_at_first_delimiter_and_unquote :
    (∀ (k v : List Char), DELIMITER ∉ k →
      Property.fromStr (k ++ DELIMITER :: v) =
        .ok ⟨normalize k, normalize v, .EnvVar⟩) ∧
    Property.fromStr "k=\x27\x27v\x27\x27".toList =
      .ok ⟨"k".toList, "v".toList, .EnvVar⟩ ∧
    Property.fromStr "k=\x27v\x22".toList =
      .ok ⟨"k".toList, "v".toList, .EnvVar⟩ := by
  refine ⟨fun k v h => ?_, by decide, by decide⟩
  simp [Property.fromStr, splitOnce_first k v h, Property.new]

/-- C4 counterexample: in `k=''v''` the value is wrapped in two layers of
matching quotes; the parser strips both layers and yields `v`, where the
claim's "exactly one layer" would yield `'v'`. In `k='v"` the quotes do not
form a matching pair; the parser still strips both, where the claim says an
unmatched pair is preserved. -/
theorem C4_counterexample_strips_all_quote_layers :
    Property.fromStr "k=\x27\x27v\x27\x27".toList =
      .ok ⟨"k".toList, "v".toList, .EnvVar⟩ ∧
    "v".toList ≠ "\x27v\x27".toList ∧
    Property.fromStr "k=\x27v\x22".toList =
      .ok ⟨"k".toList, "v".toList, .EnvVar⟩ ∧
    "v".toList ≠ "\x27v\x22".toList := by
  decide

/-- C10: the code accepts empty keys everywhere. `Property::new` validates
nothing, a line starting with `=` parses to a property whose key is the
empty string, and that property enters the resolved mapping under the empty
key. -/
theorem C10_empty_key_accepted :
    Property.fromStr "=value".toList = .ok ⟨[], "value".toList, .EnvVar⟩ ∧
    Property.new [] "x".toList .Arg = .ok ⟨[], "x".toList, .Arg⟩ ∧
    hmLookup (merge [⟨[], "value".toList, .EnvVar⟩]) [] =
      some "value".toList := by
  decide

/-! ## src/templ.rs: the placeholder scanner -/

/-- The identifier character class of `impl From<char> for Token`
(src/templ.rs lines 104-114): `a-z`, `A-Z`, `0-9`, `-`, `_`. -/
def isIdenChar (c : Char) : Bool :=
  ('a' ≤ c && c ≤ 'z') || ('A' ≤ c && c ≤ 'Z') || ('0' ≤ c && c ≤ '9') ||
    c = '-' || c = '_'

/-- `enum Token` of src/templ.rs. -/
inductive Token where
  | LeftBrace : Token
  | RightBrace : Token
  | Space : Token
  | IdenChar : Char → Token
  | OtherChar : Char → Token
deriving DecidableEq, Repr

/-- `impl From<char> for Token` (src/templ.rs lines 104-114); the Rust match
arms are tried in the same order. -/
def Token.ofChar (c : Char) : Token :=
  if isIdenChar c then .IdenChar c
  else if c = ' ' then .Space
  else if c = '\x7b' then .LeftBrace
  else if c = '\x7d' then .RightBrace
  else .OtherChar c

/-- The mutable locals of `find_keys` (src/templ.rs lines 4-8): the
`(u8, u8)` brace counters, the `Vec<char>` identifier buffer (`state`), and
the `HashSet<String>` of found keys, modelled as a deduplicated list in
insertion order. -/
structure ScanState where
  braces : Nat × Nat
  buf : List Char
  keys : List (List Char)
deriving DecidableEq, Repr

/-- `HashSet::insert` on the insertion-ordered list model. -/
def insertKey (keys : List (List Char)) (k : List Char) : List (List Char) :=
  if keys.contains k then keys else keys ++ [k]

/-- The body of `find_keys`'s `for` loop (src/templ.rs lines 9-49), arm for
arm. The catch-all `(_, _) => panic!("Braces ran out of control")` arm is
modelled as `none`. -/
def scanStep (st : ScanState) (c : Char) : Option ScanState :=
  match st.braces with
  | (0, 0) =>
    match Token.ofChar c with
    | .LeftBrace => some { st with braces := (1, 0) }
    | _ => some { st with buf := [] }
  | (1, 0) =>
    match Token.ofChar c with
    | .LeftBrace => some { st with braces := (2, 0) }
    | _ => some { st with buf := [] }
  | (2, 0) =>
    match Token.ofChar c with
    | .LeftBrace => some st
    | .RightBrace =>
      if st.buf.isEmpty then some { st with braces := (0, 0) }
      else some { st with braces := (2, 1) }
    | .Space => some { st with braces := (0, 0) }
    | .IdenChar c => some { st with buf := st.buf ++ [c] }
    | .OtherChar _ => some { st with braces := (0, 0) }
  | (2, 1) =>
    match Token.ofChar c with
    | .LeftBrace => some { st with braces := (0, 0) }
    | .RightBrace =>
      if st.buf.isEmpty then some { st with braces := (0, 0) }
      else some { braces := (0, 0), buf := [], keys := insertKey st.keys st.buf }
    | .Space => some { st with braces := (0, 0) }
    | .IdenChar c => some { st with buf := st.buf ++ [c] }
    | .OtherChar _ => some { st with braces := (0, 0) }
  | (_, _) => none

/-- The same loop body with the panic arm left as the identity: the twin of
`scanStep` used to state totality (`scanStep` never takes the panic arm, see
`scanStep_eq_some`). -/
def scanStepT (st : ScanState) (c : Char) : ScanState :=
  match st.braces with
  | (0, 0) =>
    match Token.ofChar c with
    | .LeftBrace => { st with braces := (1, 0) }
    | _ => { st with buf := [] }
  | (1, 0) =>
    match Token.ofChar c with
    | .LeftBrace => { st with braces := (2, 0) }
    | _ => { st with buf := [] }
  | (2, 0) =>
    match Token.ofChar c with
    | .LeftBrace => st
    | .RightBrace =>
      if st.buf.isEmpty then { st with braces := (0, 0) }
      else { st with braces := (2, 1) }
    | .Space => { st with braces := (0, 0) }
    | .IdenChar c => { st with buf := st.buf ++ [c] }
    | .OtherChar _ => { st with braces := (0, 0) }
  | (2, 1) =>
    match Token.ofChar c with
    | .LeftBrace => { st with braces := (0, 0) }
    | .RightBrace =>
      if st.buf.isEmpty then { st with braces := (0, 0) }
      else { braces := (0, 0), buf := [], keys := insertKey st.keys st.buf }
    | .Space => { st with braces := (0, 0) }
    | .IdenChar c => { st with buf := st.buf ++ [c] }
    | .OtherChar _ => { st with braces := (0, 0) }
  | (_, _) => st

/-- The scanner's initial state. -/
def initScan : ScanState := ⟨(0, 0), [], []⟩

/-- `find_keys` (src/templ.rs lines 4-52): fold the loop body over the
template's characters; `none` models the panic arm firing. -/
def find_keys (template : List Char) : Option (List (List Char)) :=
  (template.foldlM scanStep initScan).map ScanState.keys

/-- The total run of the scanner with the panic arm as identity. -/
def scanRun (template : List Char) : ScanState :=
  template.foldl scanStepT initScan

/-- `find_keys` through the total twin; equal to `find_keys` by
`find_keys_eq_some`. -/
def find_keys_total (template : List Char) : List (List Char) :=
  (scanRun template).keys

/-- The brace-counter pairs the scanner's loop can actually hold. -/
def BracesOk (b : Nat × Nat) : Prop :=
  b = (0, 0) ∨ b = (1, 0) ∨ b = (2, 0) ∨ b = (2, 1)

/-- On a state whose brace counters are reachable, the loop body never takes
the panic arm, agrees with its total twin, and keeps the counters
reachable. -/
theorem scanStep_eq_some {st : ScanState} (c : Char) (h : BracesOk st.braces) :
    scanStep st c = some (scanStepT st c) ∧ BracesOk (scanStepT st c).braces := by
  obtain ⟨b, buf, keys⟩ := st
  simp only [BracesOk] at h
  rcases h with h | h | h | h <;> subst h <;>
    simp only [scanStep, scanStepT] <;>
    cases hT : Token.ofChar c <;>
      simp only [hT] <;>
      (try split) <;>
      simp [BracesOk]

/-- Folding the loop body over any character list from a reachable state
never panics and agrees with the total twin. -/
theorem scanFold_eq_some :
    ∀ (t : List Char) (st : ScanState), BracesOk st.braces →
      t.foldlM scanStep st = some (t.foldl scanStepT st) ∧
        BracesOk (t.foldl scanStepT st).braces := by
  intro t
  induction t with
  | nil => intro st h; exact ⟨rfl, h⟩
  | cons c cs ih =>
    intro st h
    obtain ⟨h1, h2⟩ := scanStep_eq_some c h
    have hrest := ih (scanStepT st c) h2
    refine ⟨?_, by simpa using hrest.2⟩
    simpa [List.foldlM_cons, h1] using hrest.1

/-- C6: `find_keys` returns normally on every template (the panic arm is
unreachable) and the brace-counter pair only ever takes the four values
`(0,0)`, `(1,0)`, `(2,0)`, `(2,1)` (every prefix of an input is itself an
input, so the state after any prefix is covered). -/
theorem C6_find_keys_never_panics :
    (∀ t : List Char, find_keys t = some (find_keys_total t)) ∧
    (∀ t : List Char, BracesOk (scanRun t).braces) := by
  constructor
  · intro t
    have h := scanFold_eq_some t initScan (Or.inl rfl)
    simp [find_keys, find_keys_total, scanRun, h.1]
  · intro t
    exact (scanFold_eq_some t initScan (Or.inl rfl)).2

/-- The scanner's data invariant: the identifier buffer holds only
identifier characters, and every collected key is nonempty and holds only
identifier characters. -/
def ScanInv (st : ScanState) : Prop :=
  (∀ c ∈ st.buf, isIdenChar c = true) ∧
    ∀ k ∈ st.keys, k ≠ [] ∧ ∀ c ∈ k, isIdenChar c = true

/-- Characters pushed onto the buffer really are identifier characters. -/
theorem token_iden {c d : Char} (h : Token.ofChar c = .IdenChar d) :
    isIdenChar d = true := by
  unfold Token.ofChar at h
  split_ifs at h <;> simp_all

/-- The invariant does not mention the brace counters. -/
theorem scanInv_braces {b b' : Nat × Nat} {buf : List Char}
    {keys : List (List Char)} (h : ScanInv ⟨b, buf, keys⟩) :
    ScanInv ⟨b', buf, keys⟩ := h

/-- Clearing the buffer preserves the invariant. -/
theorem scanInv_clear {b b' : Nat × Nat} {buf : List Char}
    {keys : List (List Char)} (h : ScanInv ⟨b, buf, keys⟩) :
    ScanInv ⟨b', [], keys⟩ :=
  ⟨by simp, h.2⟩

/-- Pushing an identifier character onto the buffer preserves the
invariant. -/
theorem scanInv_push {b b' : Nat × Nat} {buf : List Char}
    {keys : List (List Char)} {d : Char} (hd : isIdenChar d = true)
    (h : ScanInv ⟨b, buf, keys⟩) :
    ScanInv ⟨b', buf ++ [d], keys⟩ := by
  refine ⟨fun c' hc' => ?_, h.2⟩
  rcases List.mem_append.mp hc' with hc' | hc'
  · exact h.1 c' hc'
  · simp only [List.mem_singleton] at hc'
    subst hc'
    exact hd

/-- Collecting a nonempty buffer as a key preserves the invariant. -/
theorem scanInv_collect {b b' : Nat × Nat} {buf : List Char}
    {keys : List (List Char)} (hne : buf ≠ []) (h : ScanInv ⟨b, buf, keys⟩) :
    ScanInv ⟨b', [], insertKey keys buf⟩ := by
  refine ⟨by simp, fun k hk => ?_⟩
  unfold insertKey at hk
  split at hk
  · exact h.2 k hk
  · rcases List.mem_append.mp hk with hk | hk
    · exact h.2 k hk
    · simp only [List.mem_singleton] at hk
      subst hk
      exact ⟨hne, h.1⟩

/-- The loop body preserves the data invariant on reachable states. -/
theorem scanStepT_inv {st : ScanState} (c : Char) (hb : BracesOk st.braces)
    (h : ScanInv st) : ScanInv (scanStepT st c) := by
  obtain ⟨b, buf, keys⟩ := st
  simp only [BracesOk] at hb
  rcases hb with hb | hb | hb | hb <;> subst hb <;>
    simp only [scanStepT] <;>
    cases hT : Token.ofChar c <;>
      simp only [hT] <;>
      (try split) <;>
      first
      | exact scanInv_clear h
      | exact scanInv_push (token_iden hT) h
      | exact scanInv_collect (by simp_all) h
      | exact scanInv_braces h

/-- The data invariant holds along the whole scan. -/
theorem scanRun_inv :
    ∀ (t : List Char) (st : ScanState), BracesOk st.braces → ScanInv st →
      ScanInv (t.foldl scanStepT st) := by
  intro t
  induction t with
  | nil => intro st _ h; exact h
  | cons c cs ih =>
    intro st hb h
    exact ih _ (scanStep_eq_some c hb).2 (scanStepT_inv c hb h)

/-- C5 (amended): every key `find_keys` returns is a nonempty string of
identifier characters (letters, digits, `-`, `_`) — so it contains no
whitespace and no brace — but a key need not arise from an occurrence of
exactly two opening braces, identifier characters and two closing braces
(see the counterexample); on the source's own unit-test template the scanner
returns exactly `FOO` and `BAR`. -/
theorem C5_keys_are_identifier_strings :
    (∀ (t : List Char) (ks : List (List Char)), find_keys t = some ks →
      ∀ k ∈ ks, k ≠ [] ∧ ∀ c ∈ k, isIdenChar c = true) ∧
    find_keys
        "\x7b\x7bFOO\x7d\x7d \x7b\x7b\x7d\x7d- \x7b\x7b\x7b\x7d\x7d\x7d \x7b\x7b  \x7d\x7d \x7b\x7bBAR\x7d\x7d".toList =
      some ["FOO".toList, "BAR".toList] := by
  constructor
  · intro t ks hks k hk
    have he := scanFold_eq_some t initScan (Or.inl rfl)
    have hks' : (t.foldl scanStepT initScan).keys = ks := by
      simpa [find_keys, he.1] using hks
    rw [← hks'] at hk
    have hinit : ScanInv initScan := ⟨by simp [initScan], by simp [initScan]⟩
    exact (scanRun_inv t initScan (Or.inl rfl) hinit).2 k hk
  · decide

/-- Whether a character list contains two consecutive opening braces
anywhere. -/
def hasDoubleLBrace : List Char → Bool
  | '\x7b' :: '\x7b' :: _ => true
  | _ :: rest => hasDoubleLBrace rest
  | [] => false

/-- C5 counterexample: on the template `\x7ba\x7bX\x7d\x7d` the scanner
returns the key `X`, yet the template nowhere contains two consecutive
opening braces, so no key of this template arises from an occurrence of
exactly two opening braces followed by identifier characters followed by
two closing braces. -/
theorem C5_counterexample_key_without_double_brace :
    find_keys "\x7ba\x7bX\x7d\x7d".toList = some ["X".toList] ∧
    hasDoubleLBrace "\x7ba\x7bX\x7d\x7d".toList = false := by
  decide

/-! ## src/template.rs: `resolve_values` and `substitution`

`substitution` calls `find_keys`; by `C6` / `scanFold_eq_some` that call
never panics and equals `find_keys_total`, which is used here so the
pipeline stays total. The final rendering step of `substitution` is
delegated by the source to the external `handlebars` crate, whose code is
not part of this repository; it is modelled from the spec below
(`renderTemplate`). -/

/-- `SubstitutionError` (src/template.rs lines 59-63). -/
inductive SubstitutionError where
  | MissingValue : List Char → SubstitutionError
  | Rendering : SubstitutionError
deriving DecidableEq, Repr

/-- `resolve_values` (src/template.rs lines 24-57): the scanner keys not
covered by the merged mapping; if none, the mapping passes through; in
interactive mode each missing key is prompted for (the `dialoguer` line
input is the injected `prompt` collaborator) and inserted; otherwise the
first missing key is reported as a `MissingValue` error. The `use_colors`
flag only themes the prompt and is dropped. -/
def resolve_values (interactive : Bool) (prompt : List Char → List Char)
    (keys : List (List Char)) (vars : List (List Char × List Char)) :
    Except SubstitutionError (List (List Char × List Char)) :=
  match keys.filter (fun k => (hmLookup vars k).isNone) with
  | [] => .ok vars
  | k :: rest =>
    if interactive then
      .ok ((k :: rest).foldl (fun m kk => hmInsert m kk (prompt kk)) vars)
    else
      .error (.MissingValue k)

/-- Modelled from the spec: the Rendering step of the substitution engine
(spec §4.6 step 3), whose implementation in the source is the external
`handlebars` crate (`reg.render`), not code of this repository. A
placeholder at the head of the text is two opening braces, one or more
identifier characters and two closing braces. -/
def matchPlaceholder : List Char → Option (List Char × List Char)
  | '\x7b' :: '\x7b' :: rest =>
    match rest.takeWhile isIdenChar, rest.dropWhile isIdenChar with
    | ident, '\x7d' :: '\x7d' :: after =>
      if ident.isEmpty then none else some (ident, after)
    | _, _ => none
  | _ => none

/-- Modelled from the spec: single-pass rendering — replace every
placeholder whose key resolves with its value verbatim (the value is not
re-scanned), pass all other text through unchanged. The fuel argument is
the input length; a placeholder consumes at least five characters, so the
fuel never runs out. -/
def renderAux (vars : List (List Char × List Char)) :
    Nat → List Char → List Char
  | 0, l => l
  | _ + 1, [] => []
  | n + 1, c :: rest =>
    match matchPlaceholder (c :: rest) with
    | some kv =>
      match hmLookup vars kv.1 with
      | some v => v ++ renderAux vars n kv.2
      | none => c :: renderAux vars n rest
    | none => c :: renderAux vars n rest

/-- Modelled from the spec: the whole Rendering step. -/
def renderTemplate (vars : List (List Char × List Char)) (t : List Char) :
    List Char :=
  renderAux vars t.length t

/-- `substitution` (src/template.rs lines 9-22): scan the template, resolve
values against the merged properties, then render. -/
def substitution (input : List Char) (vars : List Property)
    (interactive : Bool) (prompt : List Char → List Char) :
    Except SubstitutionError (List Char) :=
  match resolve_values interactive prompt (find_keys_total input) (merge vars) with
  | .error e => .error e
  | .ok m => .ok (renderTemplate m input)

/-- C7: in strict (non-interactive) mode, when some scanner key is not
covered by the merged mapping, substitution fails with a `MissingValue`
error naming such a key; in particular `Hello \x7b\x7bNAME\x7d\x7d` with no
properties fails naming `NAME`. -/
theorem C7_strict_mode_fails_naming_missing_key :
    (∀ (t : List Char) (props : List Property)
        (prompt : List Char → List Char),
      (∃ k ∈ find_keys_total t, hmLookup (merge props) k = none) →
      ∃ k ∈ find_keys_total t, hmLookup (merge props) k = none ∧
        substitution t props false prompt = .error (.MissingValue k)) ∧
    (∀ prompt : List Char → List Char,
      substitution "Hello \x7b\x7bNAME\x7d\x7d".toList [] false prompt =
        .error (.MissingValue "NAME".toList)) := by
  constructor
  · intro t props prompt h
    obtain ⟨k0, hk0, hnone⟩ := h
    have hk0diff : k0 ∈ (find_keys_total t).filter
        (fun k => (hmLookup (merge props) k).isNone) := by
      simp [List.mem_filter, hk0, hnone]
    cases hd : (find_keys_total t).filter
        (fun k => (hmLookup (merge props) k).isNone) with
    | nil => rw [hd] at hk0diff; simp at hk0diff
    | cons k1 rest =>
      have hk1 : k1 ∈ (find_keys_total t).filter
          (fun k => (hmLookup (merge props) k).isNone) := by
        rw [hd]; exact List.mem_cons_self _ _
      have hk1' := List.mem_filter.mp hk1
      refine ⟨k1, hk1'.1, by simpa using hk1'.2, ?_⟩
      simp [substitution, resolve_values, hd]
  · intro prompt
    rfl

/-- C8: when the merged mapping covers every scanner key, strict-mode
substitution succeeds and returns the rendering of the template (the
spec-modelled rendering step: each placeholder replaced by its value
verbatim, all other text — including non-qualifying brace sequences —
unchanged); concretely, `Hello \x7b\x7bNAME\x7d\x7d \x7b\x7b\x7d\x7d
\x7b\x7b \x7d\x7d \x7b\x7b\x7b\x7d\x7d\x7d` with `NAME=World` renders to
`Hello World \x7b\x7b\x7d\x7d \x7b\x7b \x7d\x7d \x7b\x7b\x7b\x7d\x7d\x7d`. -/
theorem C8_substitution_renders_when_covered :
    (∀ (t : List Char) (props : List Property)
        (prompt : List Char → List Char),
      (∀ k ∈ find_keys_total t, (hmLookup (merge props) k).isSome = true) →
      substitution t props false prompt =
        .ok (renderTemplate (merge props) t)) ∧
    (∀ prompt : List Char → List Char,
      substitution
          "Hello \x7b\x7bNAME\x7d\x7d \x7b\x7b\x7d\x7d \x7b\x7b \x7d\x7d \x7b\x7b\x7b\x7d\x7d\x7d".toList
          [⟨"NAME".toList, "World".toList, .Arg⟩] false prompt =
        .ok "Hello World \x7b\x7b\x7d\x7d \x7b\x7b \x7d\x7d \x7b\x7b\x7b\x7d\x7d\x7d".toList) := by
  constructor
  · intro t props prompt h
    have hdiff : (find_keys_total t).filter
        (fun k => (hmLookup (merge props) k).isNone) = [] := by
      rw [List.filter_eq_nil_iff]
      intro k hk
      simp [Option.isNone_iff_eq_none, ← Option.isSome_iff_ne_none, h k hk]
    simp [substitution, resolve_values, hdiff]
  · intro prompt
    rfl

/-! ## src/args.rs: `find_env_files`, the variable-file discoverer

The filesystem is modelled as a finite tree of named files and directories;
a path is its list of components. `WalkDir::new(start)` rooted at the start
directory with `filter_entry(|entry| end.starts_with(entry.path()) ||
entry.file_type().is_file())` yields an entry only when the predicate holds
and descends into a directory only when its entry was yielded;
`end.starts_with(p)` says `p` is an ancestor-or-self of `end`, i.e. a
prefix of `end`'s components. The `canonicalize`/`git_root` I/O that
produces the `start` and `end` paths is factored out as arguments. -/

mutual
/-- A filesystem entry: a file or a directory with children. -/
inductive FSEntry where
  | file : String → FSEntry
  | dir : String → FSList → FSEntry
/-- A list of filesystem entries. -/
inductive FSList where
  | nil : FSList
  | cons : FSEntry → FSList → FSList
end

mutual
/-- The filtered `WalkDir` traversal of one entry whose path is
`parent ++ [name]`: yield `(path, is_file)` for entries passing
`filter_entry`, descending only into directories that are
ancestor-or-self of `endp`. Files always pass the predicate. -/
def walkEntry (endp parent : List String) : FSEntry → List (List String × Bool)
  | .file n => [(parent ++ [n], true)]
  | .dir n ch =>
    if (parent ++ [n]).isPrefixOf endp then
      (parent ++ [n], false) :: walkList endp (parent ++ [n]) ch
    else
      []
/-- The traversal of a directory's children, in order. -/
def walkList (endp parent : List String) : FSList → List (List String × Bool)
  | .nil => []
  | .cons e rest => walkEntry endp parent e ++ walkList endp parent rest
end

/-- The acceptable file names (src/args.rs lines 206-212): `E.env` and
`E.sec` for each requested environment `E`, then `.env` and `.sec`. -/
def acceptNames (environments : List String) : List String :=
  (environments.flatMap fun e => [e ++ ".env", e ++ ".sec"]) ++ [".env", ".sec"]

/-- `Args::find_env_files` (src/args.rs lines 205-241): walk from the start
directory (the entry `root`, whose path is `startParent ++ [its name]`),
keep the files whose name (last path component) is acceptable, in the order
encountered. -/
def find_env_files (environments : List String) (endp startParent : List String)
    (root : FSEntry) : List (List String) :=
  let files := acceptNames environments
  ((walkEntry endp startParent root).filter fun e =>
      e.2 && match e.1.getLast? with
        | some n => files.contains n
        | none => false).map Prod.fst

mutual
/-- Every path the traversal of an entry yields extends the entry's parent
directory. -/
theorem walkEntry_extends_parent {endp : List String} (parent : List String)
    (e : FSEntry) (p : List String) (b : Bool)
    (h : (p, b) ∈ walkEntry endp parent e) : parent <+: p := by
  cases e with
  | file n =>
    simp only [walkEntry, List.mem_singleton, Prod.mk.injEq] at h
    exact h.1 ▸ ⟨[n], rfl⟩
  | dir n ch =>
    rw [walkEntry] at h
    split at h
    · rcases List.mem_cons.mp h with h | h
      · cases h
        exact ⟨[n], rfl⟩
      · exact List.IsPrefix.trans ⟨[n], rfl⟩
          (walkList_extends_parent (parent ++ [n]) ch p b h)
    · simp at h
/-- Every path the traversal of a child list yields extends the common
parent directory. -/
theorem walkList_extends_parent {endp : List String} (parent : List String)
    (l : FSList) (p : List String) (b : Bool)
    (h : (p, b) ∈ walkList endp parent l) : parent <+: p := by
  cases l with
  | nil => simp [walkList] at h
  | cons e rest =>
    rw [walkList] at h
    rcases List.mem_append.mp h with h | h
    · exact walkEntry_extends_parent parent e p b h
    · exact walkList_extends_parent parent rest p b h
end

mutual
/-- If the parent directory is on the chain to `endp`, every file the
traversal of an entry yields lies in a directory on that chain. -/
theorem walkEntry_file_on_chain {endp : List String} (parent : List String)
    (e : FSEntry) (p : List String) (hpar : parent <+: endp)
    (h : (p, true) ∈ walkEntry endp parent e) : p.dropLast <+: endp := by
  cases e with
  | file n =>
    simp only [walkEntry, List.mem_singleton, Prod.mk.injEq] at h
    rw [h.1, List.dropLast_concat]
    exact hpar
  | dir n ch =>
    rw [walkEntry] at h
    split at h
    case isTrue hpre =>
      rcases List.mem_cons.mp h with h | h
      · exact absurd (Prod.mk.injEq .. ▸ h).2 (by simp)
      · exact walkList_file_on_chain (parent ++ [n]) ch p
          (List.isPrefixOf_iff_prefix.mp hpre) h
    case isFalse => simp at h
/-- The child-list version of `walkEntry_file_on_chain`. -/
theorem walkList_file_on_chain {endp : List String} (parent : List String)
    (l : FSList) (p : List String) (hpar : parent <+: endp)
    (h : (p, true) ∈ walkList endp parent l) : p.dropLast <+: endp := by
  cases l with
  | nil => simp [walkList] at h
  | cons e rest =>
    rw [walkList] at h
    rcases List.mem_append.mp h with h | h
    · exact walkEntry_file_on_chain parent e p hpar h
    · exact walkList_file_on_chain parent rest p hpar h
end

mutual
/-- A directory entry is yielded (and descended into) only when it is
ancestor-or-self of `endp`: sibling directories are never visited. -/
theorem walkEntry_dir_on_chain {endp : List String} (parent : List String)
    (e : FSEntry) (q : List String)
    (h : (q, false) ∈ walkEntry endp parent e) : q <+: endp := by
  cases e with
  | file n =>
    simp [walkEntry] at h
  | dir n ch =>
    rw [walkEntry] at h
    split at h
    case isTrue hpre =>
      rcases List.mem_cons.mp h with h | h
      · cases h
        exact List.isPrefixOf_iff_prefix.mp hpre
      · exact walkList_dir_on_chain (parent ++ [n]) ch q h
    case isFalse => simp at h
/-- The child-list version of `walkEntry_dir_on_chain`. -/
theorem walkList_dir_on_chain {endp : List String} (parent : List String)
    (l : FSList) (q : List String)
    (h : (q, false) ∈ walkList endp parent l) : q <+: endp := by
  cases l with
  | nil => simp [walkList] at h
  | cons e rest =>
    rw [walkList] at h
    rcases List.mem_append.mp h with h | h
    · exact walkEntry_dir_on_chain parent e q h
    · exact walkList_dir_on_chain parent rest q h
end

/-- C9: every file path discovery returns lies on the straight-line chain
from the start directory to the template's directory: the start directory
(`startParent ++ [root name]`) is an ancestor-or-self of the returned path,
and the template's directory `endp` is a descendant-or-self of the returned
file's directory; moreover a directory is yielded by the traversal only
when it is an ancestor-or-self of `endp`, so sibling directories are never
visited. The concrete scenario walks a two-level tree and returns only the
`.env` file on the chain, skipping the sibling file `x.txt`. -/
theorem C9_discovery_stays_on_chain :
    (∀ (envs : List String) (endp sp : List String) (n : String) (ch : FSList)
        (p : List String),
      p ∈ find_env_files envs endp sp (.dir n ch) →
        (sp ++ [n]) <+: p ∧ p.dropLast <+: endp) ∧
    (∀ (endp sp : List String) (e : FSEntry) (q : List String),
      (q, false) ∈ walkEntry endp sp e → q <+: endp) ∧
    find_env_files [] ["repo", "sub"] []
        (.dir "repo" (.cons (.dir "sub" (.cons (.file ".env") .nil))
          (.cons (.file "x.txt") .nil))) =
      [["repo", "sub", ".env"]] := by
  refine ⟨?_, fun endp sp e q h => walkEntry_dir_on_chain sp e q h, by decide⟩
  intro envs endp sp n ch p hp
  simp only [find_env_files, List.mem_map] at hp
  obtain ⟨⟨p', b⟩, hmem, hfst⟩ := hp
  obtain ⟨hwalk, hpred⟩ := List.mem_filter.mp hmem
  have hb : b = true := by
    rcases Bool.and_eq_true .. |>.mp hpred with ⟨hb, _⟩
    exact hb
  subst hb
  cases hfst
  rw [walkEntry] at hwalk
  split at hwalk
  case isTrue hpre =>
    rcases List.mem_cons.mp hwalk with h | h
    · exact absurd (Prod.mk.injEq .. ▸ h).2 (by simp)
    · exact ⟨walkList_extends_parent (sp ++ [n]) ch p' true h,
        walkList_file_on_chain (sp ++ [n]) ch p'
          (List.isPrefixOf_iff_prefix.mp hpre) h⟩
  case isFalse => simp at hwalk

end Fire
